import Mathlib

/-!
Verification development for the `kbcreator` ingestion pipeline
(`src/pipeline.ts`).  Text is modelled as `List Char`; the external
collaborators (markdown parser, sentence splitter, embedding provider,
vector store, uuid v5 hash) are modelled as explicit function parameters,
exactly as they are consumed by the pipeline.  JavaScript numbers that the
pipeline uses as integers (batch sizes, indices, retry counts, backoff
delays) are modelled as `Nat`, and the loop index of `chunkArray` (which
can go negative for a negative batch size) as `Int`.
-/

namespace KB

/-- Whitespace predicate used by `trim`; models JavaScript
`String.prototype.trim`'s whitespace class (restricted to the ASCII
whitespace the repository's markdown inputs contain). -/
abbrev ws : Char → Bool := Char.isWhitespace

/-- Leading-whitespace strip, one half of JS `trim`. -/
def ltrim (s : List Char) : List Char := s.dropWhile ws

/-- Trailing-whitespace strip, the other half of JS `trim`. -/
def rtrim (s : List Char) : List Char := (s.reverse.dropWhile ws).reverse

/-- Model of JS `String.prototype.trim` (pipeline.ts lines 54, 112, 126). -/
def trim (s : List Char) : List Char := rtrim (ltrim s)

theorem dropWhile_self_idem (p : α → Bool) (l : List α) :
    (l.dropWhile p).dropWhile p = l.dropWhile p := by
  induction l with
  | nil => rfl
  | cons a l ih =>
    by_cases h : p a
    · simpa [List.dropWhile_cons, h] using ih
    · simp [List.dropWhile_cons, h]

theorem dropWhile_append_cons (p : α → Bool) (xs : List α) (c : α) (ys : List α)
    (h : p c = false) :
    (xs ++ c :: ys).dropWhile p = xs.dropWhile p ++ c :: ys := by
  induction xs with
  | nil => simp [List.dropWhile_cons, h]
  | cons a xs ih =>
    by_cases ha : p a
    · simpa [List.dropWhile_cons, ha] using ih
    · simp [List.dropWhile_cons, ha]

theorem takeWhile_append_cons (p : α → Bool) (xs : List α) (c : α) (ys : List α)
    (hxs : ∀ x ∈ xs, p x = true) (h : p c = false) :
    (xs ++ c :: ys).takeWhile p = xs := by
  induction xs with
  | nil => simp [List.takeWhile_cons, h]
  | cons a xs ih =>
    have ha : p a = true := hxs a (by simp)
    simp only [List.cons_append, List.takeWhile_cons, ha, if_true]
    rw [ih (fun x hx => hxs x (by simp [hx]))]

theorem dropWhile_all_append_cons (p : α → Bool) (xs : List α) (c : α) (ys : List α)
    (hxs : ∀ x ∈ xs, p x = true) (h : p c = false) :
    (xs ++ c :: ys).dropWhile p = c :: ys := by
  induction xs with
  | nil => simp [List.dropWhile_cons, h]
  | cons a xs ih =>
    have ha : p a = true := hxs a (by simp)
    simp only [List.cons_append, List.dropWhile_cons, ha, if_true]
    exact ih (fun x hx => hxs x (by simp [hx]))

theorem ltrim_ltrim (s : List Char) : ltrim (ltrim s) = ltrim s :=
  dropWhile_self_idem ws s

/-- The reverse of a trimmed string has no leading whitespace. -/
theorem dropWhile_reverse_trim (s : List Char) :
    (trim s).reverse.dropWhile ws = (trim s).reverse := by
  simp only [trim, rtrim, List.reverse_reverse]
  exact dropWhile_self_idem ws (ltrim s).reverse

/-- Key shape lemma: trimming `fileName ++ "||" ++ trimmedRaw` strips only the
leading whitespace of `fileName` (the `"||"` separator shields everything
else). -/
theorem trim_block (fn r : List Char) :
    trim (fn ++ '|' :: '|' :: trim r) = ltrim fn ++ '|' :: '|' :: trim r := by
  have hbar : ws '|' = false := by decide
  have h1 : ltrim (fn ++ '|' :: '|' :: trim r) = ltrim fn ++ '|' :: '|' :: trim r :=
    dropWhile_append_cons ws fn '|' ('|' :: trim r) hbar
  show rtrim (ltrim (fn ++ '|' :: '|' :: trim r)) = _
  rw [h1]
  unfold rtrim
  have h2 : (ltrim fn ++ '|' :: '|' :: trim r).reverse
      = (trim r).reverse ++ '|' :: '|' :: (ltrim fn).reverse := by
    simp [List.reverse_append]
  rw [h2, dropWhile_append_cons ws _ '|' _ hbar, dropWhile_reverse_trim]
  simp [List.reverse_append]

/-- A trimmed block is a fixed point of `trim`. -/
theorem trim_block_fixed (fn r : List Char) :
    trim (ltrim fn ++ '|' :: '|' :: trim r) = ltrim fn ++ '|' :: '|' :: trim r := by
  have := trim_block (ltrim fn) r
  rwa [ltrim_ltrim] at this

theorem block_ne_nil (fn r : List Char) :
    ltrim fn ++ '|' :: '|' :: trim r ≠ [] := by
  simp

/-! ### Decimal rendering of JS integer numbers

`stableId` builds the name string with a template literal; the section and
chunk indices (non-negative integers) are rendered in decimal.  We model
that rendering, and prove it produces digit characters only and is
injective — the facts the id-uniqueness claim rests on. -/

/-- The decimal digit character for `d < 10`. -/
def digitChar (d : Nat) : Char := Char.ofNat (48 + d)

/-- Numeric value of a digit character. -/
def charVal (c : Char) : Nat := c.toNat - 48

/-- Value of a digit string, most significant digit first. -/
def valDigits (l : List Char) : Nat := l.foldl (fun a c => 10 * a + charVal c) 0

/-- Fuel-indexed decimal rendering (structural, so it evaluates by `decide`). -/
def natToStringAux : Nat → Nat → List Char
  | 0, _ => []
  | fuel + 1, n =>
    if n < 10 then [digitChar n]
    else natToStringAux fuel (n / 10) ++ [digitChar (n % 10)]

/-- Decimal rendering of a natural number, as JS renders an integer. -/
def natToString (n : Nat) : List Char := natToStringAux (n + 1) n

theorem natToStringAux_fuel : ∀ f g n, n < f → n < g →
    natToStringAux f n = natToStringAux g n := by
  intro f
  induction f with
  | zero => intro g n hf; omega
  | succ f ih =>
    intro g n hf hg
    match g with
    | 0 => omega
    | g + 1 =>
      show natToStringAux (f + 1) n = natToStringAux (g + 1) n
      by_cases h10 : n < 10
      · simp [natToStringAux, h10]
      · have hdiv : n / 10 < n := Nat.div_lt_self (by omega) (by omega)
        simp only [natToStringAux, h10, if_false]
        rw [ih g (n / 10) (by omega) (by omega)]

/-- Unfolding equation for `natToString`. -/
theorem natToString_eq (n : Nat) :
    natToString n = if n < 10 then [digitChar n]
      else natToString (n / 10) ++ [digitChar (n % 10)] := by
  by_cases h10 : n < 10
  · simp [natToString, natToStringAux, h10]
  · have hdiv : n / 10 < n := Nat.div_lt_self (by omega) (by omega)
    have step : natToString n = natToStringAux n (n / 10) ++ [digitChar (n % 10)] := by
      simp [natToString, natToStringAux, h10]
    rw [step, natToStringAux_fuel n (n / 10 + 1) (n / 10) (by omega) (by omega), if_neg h10]
    rfl

theorem charVal_digitChar (d : Nat) (h : d < 10) : charVal (digitChar d) = d := by
  interval_cases d <;> decide

theorem isDigit_digitChar (d : Nat) (h : d < 10) : (digitChar d).isDigit = true := by
  interval_cases d <;> decide

theorem natToString_digits (n : Nat) : ∀ c ∈ natToString n, c.isDigit = true := by
  rw [natToString_eq]
  split
  · next h => intro c hc; simp at hc; subst hc; exact isDigit_digitChar n h
  · next h =>
    intro c hc
    simp only [List.mem_append, List.mem_singleton] at hc
    rcases hc with hc | hc
    · exact natToString_digits (n / 10) c hc
    · subst hc; exact isDigit_digitChar (n % 10) (Nat.mod_lt n (by omega))
termination_by n
decreasing_by exact Nat.div_lt_self (by omega) (by omega)

theorem valDigits_append_singleton (l : List Char) (c : Char) :
    valDigits (l ++ [c]) = 10 * valDigits l + charVal c := by
  simp [valDigits, List.foldl_append]

theorem valDigits_natToString (n : Nat) : valDigits (natToString n) = n := by
  rw [natToString_eq]
  split
  · next h =>
    simp [valDigits, charVal_digitChar n h]
  · next h =>
    rw [valDigits_append_singleton, valDigits_natToString (n / 10),
      charVal_digitChar (n % 10) (Nat.mod_lt n (by omega))]
    omega
termination_by n
decreasing_by exact Nat.div_lt_self (by omega) (by omega)

theorem natToString_inj {a b : Nat} (h : natToString a = natToString b) : a = b := by
  have := congrArg valDigits h
  rwa [valDigits_natToString, valDigits_natToString] at this

/-! ### stableId (pipeline.ts lines 24-28)

`stableId` hashes the canonical name
`` `${path}|s${sectionIndex}|c${chunkIndex}` `` with uuid `v5` under a fixed
namespace.  The `v5` hash is an external library; it is passed in as a
function parameter. -/

/-- The argument record of `stableId` (pipeline.ts line 24).  The `text`
field is present in the payload handed to `stableId` by `allPoints` but is
never read by it. -/
structure IdPayload where
  path : List Char
  sectionIndex : Nat
  chunkIndex : Nat
  text : List Char

/-- The fixed namespace constant `BASE_NS` (pipeline.ts line 26). -/
def BASE_NS : List Char := "6f1a73a1-8d1b-4c31-9b00-1c4c2e0f9b12".data

/-- The canonical name string `` `${path}|s${sectionIndex}|c${chunkIndex}` ``
(pipeline.ts line 25). -/
def stableName (p : IdPayload) : List Char :=
  p.path ++ ('|' :: 's' :: natToString p.sectionIndex)
    ++ ('|' :: 'c' :: natToString p.chunkIndex)

/-- `stableId` (pipeline.ts lines 24-28): the external uuid-`v5` hash applied
to the canonical name and the fixed namespace. -/
def stableId (v5 : List Char → List Char → List Char) (p : IdPayload) : List Char :=
  v5 (stableName p) BASE_NS

/-- Unambiguity of the `"...|m<digits>"` framing: the marker character is not
a digit, so the digit tail and the front part are both determined. -/
theorem marker_split (m : Char) (hm : m.isDigit = false) (a b d e : List Char)
    (hd : ∀ x ∈ d, x.isDigit = true) (he : ∀ x ∈ e, x.isDigit = true)
    (h : a ++ '|' :: m :: d = b ++ '|' :: m :: e) :
    a = b ∧ d = e := by
  have hrev := congrArg List.reverse h
  have ha : (a ++ '|' :: m :: d).reverse = d.reverse ++ m :: '|' :: a.reverse := by
    simp [List.reverse_append]
  have hb : (b ++ '|' :: m :: e).reverse = e.reverse ++ m :: '|' :: b.reverse := by
    simp [List.reverse_append]
  rw [ha, hb] at hrev
  have hd' : ∀ x ∈ d.reverse, Char.isDigit x = true := by
    intro x hx; exact hd x (List.mem_reverse.mp hx)
  have he' : ∀ x ∈ e.reverse, Char.isDigit x = true := by
    intro x hx; exact he x (List.mem_reverse.mp hx)
  have htake := congrArg (List.takeWhile Char.isDigit) hrev
  rw [takeWhile_append_cons Char.isDigit d.reverse m ('|' :: a.reverse) hd' hm,
    takeWhile_append_cons Char.isDigit e.reverse m ('|' :: b.reverse) he' hm] at htake
  have hde : d = e := by
    have := congrArg List.reverse htake
    simpa using this
  have hdrop := congrArg (List.dropWhile Char.isDigit) hrev
  rw [dropWhile_all_append_cons Char.isDigit d.reverse m ('|' :: a.reverse) hd' hm,
    dropWhile_all_append_cons Char.isDigit e.reverse m ('|' :: b.reverse) he' hm] at hdrop
  have hab : a = b := by
    have h1 : a.reverse = b.reverse := by
      simpa using hdrop
    have := congrArg List.reverse h1
    simpa using this
  exact ⟨hab, hde⟩

/-- The canonical name determines the `(path, sectionIndex, chunkIndex)`
triple. -/
theorem stableName_inj (p q : IdPayload) (h : stableName p = stableName q) :
    p.path = q.path ∧ p.sectionIndex = q.sectionIndex
      ∧ p.chunkIndex = q.chunkIndex := by
  unfold stableName at h
  have hc := marker_split 'c' (by decide)
    (p.path ++ '|' :: 's' :: natToString p.sectionIndex)
    (q.path ++ '|' :: 's' :: natToString q.sectionIndex)
    (natToString p.chunkIndex) (natToString q.chunkIndex)
    (natToString_digits p.chunkIndex) (natToString_digits q.chunkIndex) h
  have hs := marker_split 's' (by decide) p.path q.path
    (natToString p.sectionIndex) (natToString q.sectionIndex)
    (natToString_digits p.sectionIndex) (natToString_digits q.sectionIndex) hc.1
  exact ⟨hs.1, natToString_inj hs.2, natToString_inj hc.2⟩

/-! ### Sections and chunks (pipeline.ts lines 49-58 and 96-129)

`MarkdownNodeParser` and `SentenceSplitter` are external llamaindex
components; the list of sections (each carrying its source path metadata)
and the raw splitter `String → String[]` are passed in as parameters.
`sectionTitle`/`sectionAnchor` metadata are carried on chunks by the source
but no verified claim mentions them, so the `Chunk` record models the
positional and text fields. -/

/-- A heading-delimited section as produced by `MarkdownNodeParser`: the
owning document's `path` metadata and the section text. -/
structure Sec where
  path : List Char
  text : List Char
deriving DecidableEq

/-- A surviving chunk with its flat payload fields (pipeline.ts
lines 109-127). -/
structure Chunk where
  path : List Char
  fileName : List Char
  sectionIndex : Nat
  chunkIndex : Nat
  text : List Char
deriving DecidableEq

/-- `splitSection` (pipeline.ts lines 49-58): run the sentence splitter on
the section text, trim every produced chunk, and drop the empty ones. -/
def splitSection (splitter : List Char → List (List Char)) (secText : List Char) :
    List (List Char) :=
  (((splitter secText).map trim).filter (fun t => decide (0 < t.length)))

/-- Index of the last `'.'` in a file name, if any (the extension dot found
by Node's `path.parse`). -/
def lastDot : List Char → Option Nat
  | [] => none
  | c :: rest =>
    match lastDot rest with
    | some i => some (i + 1)
    | none => if c = '.' then some 0 else none

/-- `path.parse(filePath).name` for the directory-free file names the loader
produces: the base name with the extension removed, except that a lone
leading dot is kept (Node treats `".md"` as a name, not an extension). -/
def fileNameOf (base : List Char) : List Char :=
  match lastDot base with
  | some i => if i = 0 then base else base.take i
  | none => base

/-- One turn of the inner chunk loop (pipeline.ts lines 109-127):
`chunkIndex` is one plus the position among the section's parts, and the
stored text is `` `${fileName}||${raw}` `` trimmed, where `raw` is the
part's text trimmed. -/
def mkChunk (fp fn : List Char) (k : Nat) (pr : Nat × List Char) : Chunk :=
  { path := fp, fileName := fn, sectionIndex := k, chunkIndex := pr.1 + 1,
    text := trim (fn ++ '|' :: '|' :: trim pr.2) }

/-- The chunks a single section contributes (pipeline.ts lines 107-128):
each part gets a 1-based `chunkIndex` in split order, and a chunk is pushed
only if its final text is non-empty. -/
def buildChunks (parts : List (List Char)) (fp fn : List Char) (k : Nat) :
    List Chunk :=
  ((parts.enum.map (mkChunk fp fn k)).filter (fun ch => decide (0 < ch.text.length)))

/-- First-match lookup in the association list modelling the
`perFileSection` `Map` (pipeline.ts line 97); insertion is modelled by
prepending, which with first-match lookup is exactly `Map.set`. -/
def lookupPath : List (List Char × Nat) → List Char → Option Nat
  | [], _ => none
  | (k, v) :: rest, p => if k = p then some v else lookupPath rest p

/-- The per-section loop of `main` (pipeline.ts lines 99-129): each section
gets `sectionIndex` one plus the count stored for its path, the map is
updated, and the section's chunks are appended. -/
def processSections (splitter : List Char → List (List Char)) :
    List Sec → List (List Char × Nat) → List Chunk
  | [], _ => []
  | sec :: rest, seen =>
    buildChunks (splitSection splitter sec.text) sec.path (fileNameOf sec.path)
        ((lookupPath seen sec.path).getD 0 + 1)
      ++ processSections splitter rest
        ((sec.path, (lookupPath seen sec.path).getD 0 + 1) :: seen)

/-- Restatement of the section loop following the spec's words: a counting
function (zero for every path at the start) records how many sections of
each file have been seen; each section's `sectionIndex` is that count plus
one, so numbering restarts at 1 per file and increases by 1 per successive
section of the same file. -/
def processSectionsSpec (splitter : List Char → List (List Char)) :
    List Sec → (List Char → Nat) → List Chunk
  | [], _ => []
  | sec :: rest, cnt =>
    buildChunks (splitSection splitter sec.text) sec.path (fileNameOf sec.path)
        (cnt sec.path + 1)
      ++ processSectionsSpec splitter rest
        (fun p => if p = sec.path then cnt p + 1 else cnt p)

theorem processSections_eq_spec_aux
    (splitter : List Char → List (List Char)) :
    ∀ (secs : List Sec) (seen : List (List Char × Nat)) (cnt : List Char → Nat),
      (∀ p, (lookupPath seen p).getD 0 = cnt p) →
      processSections splitter secs seen = processSectionsSpec splitter secs cnt := by
  intro secs
  induction secs with
  | nil => intro seen cnt _; rfl
  | cons sec rest ih =>
    intro seen cnt hagree
    show buildChunks _ _ _ _ ++ _ = buildChunks _ _ _ _ ++ _
    rw [hagree sec.path]
    congr 1
    apply ih
    intro p
    by_cases hp : sec.path = p
    · subst hp; simp [lookupPath, hagree sec.path]
    · simp only [lookupPath, if_neg hp]
      rw [hagree p, if_neg (fun h => hp h.symm)]

/-- Every chunk a section contributes has text
`ltrim fileName ++ "||" ++ trim raw`, with `chunkIndex` the 1-based
position of its part: the inner filter drops nothing because every built
text contains the `"||"` separator. -/
theorem buildChunks_eq (parts : List (List Char)) (fp fn : List Char) (k : Nat) :
    buildChunks parts fp fn k
      = parts.enum.map (fun pr =>
          { path := fp, fileName := fn, sectionIndex := k, chunkIndex := pr.1 + 1,
            text := ltrim fn ++ '|' :: '|' :: trim pr.2 : Chunk }) := by
  unfold buildChunks
  have hmk : mkChunk fp fn k = (fun pr : Nat × List Char =>
      { path := fp, fileName := fn, sectionIndex := k, chunkIndex := pr.1 + 1,
        text := ltrim fn ++ '|' :: '|' :: trim pr.2 : Chunk }) := by
    funext pr
    simp [mkChunk, trim_block]
  rw [hmk, List.filter_eq_self.mpr]
  intro ch hch
  rcases List.mem_map.mp hch with ⟨pr, _, rfl⟩
  simp

/-! ### chunkArray (pipeline.ts lines 60-64)

The source is `for (let i = 0; i < arr.length; i += size) out.push(arr.slice(i, i + size))`.
`chunkArrayFuel` is the loop verbatim (JS `slice` semantics, `Int` index,
fuel for the possibly non-terminating loop); `chunkArray` is the structural
function the rest of the embedding uses, proved below to agree with the
loop whenever `size ≥ 1`.  For `size ≤ 0` and a non-empty array the loop
condition `i < arr.length` never turns false, which is the non-termination
half of the termination claim. -/

/-- ECMAScript index clamping used by `Array.prototype.slice`. -/
def jsSliceIndex (len : Nat) (x : Int) : Nat :=
  if x < 0 then (max ((len : Int) + x) 0).toNat else min x.toNat len

/-- `arr.slice(start, finish)` with full JS semantics. -/
def jsSlice (arr : List α) (start finish : Int) : List α :=
  (arr.take (jsSliceIndex arr.length finish)).drop (jsSliceIndex arr.length start)

/-- The `chunkArray` loop, verbatim, with explicit fuel: `none` means the
fuel ran out before the loop condition turned false. -/
def chunkArrayFuel (arr : List α) (size : Int) :
    Nat → Int → List (List α) → Option (List (List α))
  | 0, _, _ => none
  | fuel + 1, i, out =>
    if i < (arr.length : Int) then
      chunkArrayFuel arr size fuel (i + size) (out ++ [jsSlice arr i (i + size)])
    else some out

/-- Structural companion of the loop (fuel = input length suffices once
`size ≥ 1`); this is the form the pipeline model computes with. -/
def chunkArrayAux : Nat → List α → Nat → List (List α)
  | 0, _, _ => []
  | _ + 1, [], _ => []
  | fuel + 1, a :: arr, size =>
    (a :: arr).take size :: chunkArrayAux fuel ((a :: arr).drop size) size

/-- `chunkArray` (pipeline.ts lines 60-64), for the positive batch sizes the
pipeline uses (`EMBED_BATCH`, `UPSERT_BATCH`). -/
def chunkArray (arr : List α) (size : Nat) : List (List α) :=
  chunkArrayAux arr.length arr size

theorem chunkArrayAux_fuel (s : Nat) :
    ∀ f g (l : List α), l.length ≤ f → l.length ≤ g →
      chunkArrayAux f l (s + 1) = chunkArrayAux g l (s + 1) := by
  intro f
  induction f with
  | zero =>
    intro g l hf _
    have : l = [] := List.length_eq_zero.mp (Nat.le_zero.mp hf)
    subst this
    cases g <;> rfl
  | succ f ih =>
    intro g l hf hg
    match l, g with
    | [], 0 => rfl
    | [], g + 1 => rfl
    | a :: arr, 0 => simp at hg
    | a :: arr, g + 1 =>
      show _ :: chunkArrayAux f _ _ = _ :: chunkArrayAux g _ _
      congr 1
      simp only [List.length_cons] at hf hg
      apply ih <;> simp <;> omega

theorem chunkArray_nil (s : Nat) : chunkArray ([] : List α) s = [] := rfl

/-- Unfolding equation of `chunkArray` on a non-empty list and positive
size. -/
theorem chunkArray_cons (a : α) (arr : List α) (s : Nat) :
    chunkArray (a :: arr) (s + 1)
      = (a :: arr).take (s + 1) :: chunkArray ((a :: arr).drop (s + 1)) (s + 1) := by
  show chunkArrayAux (arr.length + 1) (a :: arr) (s + 1) = _
  show _ :: chunkArrayAux arr.length ((a :: arr).drop (s + 1)) (s + 1) = _
  congr 1
  apply chunkArrayAux_fuel
  · simp
  · simp

theorem flatten_chunkArrayAux (s : Nat) :
    ∀ f (l : List α), l.length ≤ f → (chunkArrayAux f l (s + 1)).flatten = l := by
  intro f
  induction f with
  | zero =>
    intro l hf
    have : l = [] := List.length_eq_zero.mp (Nat.le_zero.mp hf)
    subst this; rfl
  | succ f ih =>
    intro l hf
    match l with
    | [] => rfl
    | a :: arr =>
      show ((a :: arr).take (s + 1) :: chunkArrayAux f ((a :: arr).drop (s + 1))
        (s + 1)).flatten = a :: arr
      rw [List.flatten_cons, ih _ (by simp at hf ⊢; omega), List.take_append_drop]

/-- A positive-size `chunkArray` is a partition: batch concatenation gives
back the input list. -/
theorem flatten_chunkArray (s : Nat) (l : List α) :
    (chunkArray l (s + 1)).flatten = l :=
  flatten_chunkArrayAux s l.length l (Nat.le_refl _)

theorem chunkArrayAux_batch_le (s : Nat) :
    ∀ f (l : List α) b, b ∈ chunkArrayAux f l (s + 1) → b.length ≤ s + 1 := by
  intro f
  induction f with
  | zero => intro l b hb; simp [chunkArrayAux] at hb
  | succ f ih =>
    intro l b hb
    match l with
    | [] => simp [chunkArrayAux] at hb
    | a :: arr =>
      rcases List.mem_cons.mp hb with rfl | hb
      · simp
      · exact ih _ b hb

/-- Every batch of a positive-size `chunkArray` has at most `s + 1`
elements. -/
theorem chunkArray_batch_le (s : Nat) (l : List α) (b : List α)
    (hb : b ∈ chunkArray l (s + 1)) : b.length ≤ s + 1 :=
  chunkArrayAux_batch_le s l.length l b hb

/-- With positive size and enough fuel, the literal loop terminates and
produces exactly the structural `chunkArray` of the remaining list. -/
theorem chunkArrayFuel_pos (s : Nat) (arr : List α) :
    ∀ (m k : Nat) (out : List (List α)), arr.length ≤ k + m →
      chunkArrayFuel arr ((s : Int) + 1) (m + 1) (k : Int) out
        = some (out ++ chunkArray (arr.drop k) (s + 1)) := by
  intro m
  induction m with
  | zero =>
    intro k out hk
    have hge : ¬((k : Int) < (arr.length : Int)) := by
      simp only [Nat.add_zero] at hk
      exact_mod_cast Nat.not_lt.mpr hk
    rw [show chunkArrayFuel arr ((s : Int) + 1) 1 (k : Int) out = some out from
      by simp [chunkArrayFuel, hge]]
    rw [List.drop_eq_nil_of_le (by simpa using hk), chunkArray_nil, List.append_nil]
  | succ m ih =>
    intro k out hk
    by_cases hlt : k < arr.length
    · have hlt' : (k : Int) < (arr.length : Int) := by exact_mod_cast hlt
      have hcast : (k : Int) + ((s : Int) + 1) = ((k + s + 1 : Nat) : Int) := by
        push_cast; ring
      have hslice : jsSlice arr (k : Int) (((k + s + 1 : Nat)) : Int)
          = (arr.drop k).take (s + 1) := by
        unfold jsSlice jsSliceIndex
        have h1 : ¬((k : Int) < 0) := by omega
        have h2 : ¬((((k + s + 1 : Nat)) : Int) < 0) := by omega
        simp only [h1, if_false, h2, Int.toNat_natCast]
        rw [Nat.min_eq_left (Nat.le_of_lt hlt)]
        by_cases hle : k + s + 1 ≤ arr.length
        · rw [Nat.min_eq_left hle, List.drop_take]
          congr 1
          omega
        · rw [Nat.min_eq_right (by omega), List.take_length, eq_comm]
          apply List.take_of_length_le
          simp only [List.length_drop]
          omega
      have hstep : chunkArrayFuel arr ((s : Int) + 1) (m + 1 + 1) (k : Int) out
          = chunkArrayFuel arr ((s : Int) + 1) (m + 1) (((k + s + 1 : Nat)) : Int)
            (out ++ [(arr.drop k).take (s + 1)]) := by
        rw [show chunkArrayFuel arr ((s : Int) + 1) (m + 1 + 1) (k : Int) out
            = chunkArrayFuel arr ((s : Int) + 1) (m + 1) ((k : Int) + ((s : Int) + 1))
              (out ++ [jsSlice arr (k : Int) ((k : Int) + ((s : Int) + 1))]) from
          by simp [chunkArrayFuel, hlt']]
        rw [hcast, hslice]
      rw [hstep, ih (k + s + 1) _ (by omega)]
      match hdk : arr.drop k with
      | [] =>
        exfalso
        have hlen := congrArg List.length hdk
        simp only [List.length_drop, List.length_nil] at hlen
        omega
      | a :: rest =>
        rw [show arr.drop (k + s + 1) = (arr.drop k).drop (s + 1) from by
          rw [List.drop_drop, Nat.add_assoc]]
        rw [hdk, chunkArray_cons]
        simp
    · have hge : ¬((k : Int) < (arr.length : Int)) := by
        exact_mod_cast hlt
      rw [show chunkArrayFuel arr ((s : Int) + 1) (m + 1 + 1) (k : Int) out = some out from
        by simp [chunkArrayFuel, hge]]
      rw [List.drop_eq_nil_of_le (by omega), chunkArray_nil, List.append_nil]

/-- With a non-positive size and a non-empty array, the loop never
terminates: the index never reaches the length. -/
theorem chunkArrayFuel_nonpos (arr : List α) (size : Int) (hsize : size ≤ 0)
    (harr : arr ≠ []) :
    ∀ (fuel : Nat) (i : Int), i ≤ 0 → ∀ out,
      chunkArrayFuel arr size fuel i out = none := by
  intro fuel
  induction fuel with
  | zero => intro i _ out; rfl
  | succ fuel ih =>
    intro i hi out
    have hlen : 0 < arr.length := List.length_pos.mpr harr
    have hlt : i < (arr.length : Int) := by
      have : (0 : Int) < (arr.length : Int) := by exact_mod_cast hlen
      omega
    simp only [chunkArrayFuel, hlt, if_true]
    exact ih (i + size) (by omega) _

/-! ### withRetry (pipeline.ts lines 67-81)

The retried operation is modelled as a function of the attempt number, so a
provider may fail on some attempts and succeed on later ones.  On each
failure the loop records the backoff wait `min(2000 * 2 ** attempt, 15000)`
and retries; when `tries` attempts are exhausted it throws the last error
(`none` models JS throwing the initial `undefined` when `tries = 0`).  The
returned wait list is the sequence of sleeps performed. -/

/-- The `withRetry` loop; arguments are the current attempt number, the
remaining iterations (`tries - attempt`), and `lastErr`. -/
def withRetryGo (fn : Nat → Except E A) :
    Nat → Nat → Option E → Except (Option E) A × List Nat
  | _, 0, lastErr => (.error lastErr, [])
  | attempt, rem + 1, _lastErr =>
    match fn attempt with
    | .ok a => (.ok a, [])
    | .error e =>
      let w := min (2000 * 2 ^ attempt) 15000
      let r := withRetryGo fn (attempt + 1) rem (some e)
      (r.1, w :: r.2)

/-- `withRetry` (pipeline.ts lines 67-81). -/
def withRetry (fn : Nat → Except E A) (tries : Nat) :
    Except (Option E) A × List Nat :=
  withRetryGo fn 0 tries none

/-- Number of invocations of the wrapped operation a `withRetry` run makes:
one per recorded failure, plus the successful one if any. -/
def callsOf (r : Except (Option E) A × List Nat) : Nat :=
  match r.1 with
  | .ok _ => r.2.length + 1
  | .error _ => r.2.length

/-- `main().catch(e => { console.error(e); process.exit(1); })`
(pipeline.ts lines 197-200): error means exit status 1, clean return means
status 0. -/
def processExit (r : Except ε α) : Nat :=
  match r with
  | .ok _ => 0
  | .error _ => 1

/-! ### The orchestrated run (pipeline.ts `main`, lines 83-195)

External effects are made explicit: the embedding provider is a function of
(batch index, attempt) returning either an error or a response whose `data`
may be missing (`none` models a response without a `data` array); the
vector store upsert likewise.  The run result records the pipeline outcome,
the warnings printed, the number of provider calls made and the point
batches passed to upsert calls. -/

/-- The three `throw` sites of `main` plus retry exhaustion. -/
inductive PipeErr (E : Type) where
  | retryExhausted : Option E → PipeErr E
  | sizeMismatch (got expected : Nat) : PipeErr E
  | misalignment (vectors chunks : Nat) : PipeErr E
deriving DecidableEq

/-- A warning printed by `main` before a clean early return. -/
inductive Warn where
  | noDocs
  | noChunks
deriving DecidableEq

/-- A document as loaded by `loadMarkdownDocs`. -/
structure Doc where
  path : List Char
  text : List Char
deriving DecidableEq

/-- A point sent to the vector store (pipeline.ts lines 158-184); the flat
payload is the chunk record. -/
structure Point (V : Type) where
  id : List Char
  vector : V
  payload : Chunk
deriving DecidableEq

/-- Outcome of one pipeline run. -/
structure RunResult (V E : Type) where
  result : Except (PipeErr E) Nat
  warnings : List Warn
  embedCalls : Nat
  upsertCalls : List (List (Point V))

/-- `EMBED_BATCH` (pipeline.ts line 17). -/
def EMBED_BATCH : Nat := 128

/-- `UPSERT_BATCH` (pipeline.ts line 18). -/
def UPSERT_BATCH : Nat := 2000

/-- The embedding stage (pipeline.ts lines 141-151): per batch, retry the
provider call, then — outside the retry — verify the returned vector count
against the batch's input count; on success accumulate the vectors in batch
order.  Also returns the total number of provider calls made. -/
def embedBatchesGo (embed : Nat → Nat → Except E (Option (List V))) (tries : Nat) :
    Nat → List (List (List Char)) → List V → Except (PipeErr E) (List V) × Nat
  | _, [], vectors => (.ok vectors, 0)
  | b, slice :: rest, vectors =>
    let r := withRetry (embed b) tries
    let n := callsOf r
    match r.1 with
    | .error e => (.error (.retryExhausted e), n)
    | .ok none => (.error (.sizeMismatch 0 slice.length), n)
    | .ok (some data) =>
      if data.length = slice.length then
        let rec2 := embedBatchesGo embed tries (b + 1) rest (vectors ++ data)
        (rec2.1, n + rec2.2)
      else (.error (.sizeMismatch data.length slice.length), n)

/-- The upsert stage (pipeline.ts lines 187-192): per point batch, retry the
upsert call, accumulating the submitted count; returns the batches for
which at least one upsert call was made. -/
def upsertBatchesGo (upsert : Nat → Nat → Except E Unit) (tries : Nat) :
    Nat → List (List (Point V)) → Nat → Except (Option E) Nat × List (List (Point V))
  | _, [], upserted => (.ok upserted, [])
  | i, batch :: rest, upserted =>
    match (withRetry (upsert i) tries).1 with
    | .error e => (.error e, [batch])
    | .ok _ =>
      let r := upsertBatchesGo upsert tries (i + 1) rest (upserted + batch.length)
      (r.1, batch :: r.2)

/-- `allPoints` (pipeline.ts lines 158-184): pair each chunk with its
index-aligned vector, compute the deterministic id from the positional
fields, and keep the chunk fields as the flat payload. -/
def buildPoints (v5 : List Char → List Char → List Char) (chunks : List Chunk)
    (vectors : List V) : List (Point V) :=
  (chunks.zip vectors).map fun cv =>
    { id := stableId v5
        { path := cv.1.path, sectionIndex := cv.1.sectionIndex,
          chunkIndex := cv.1.chunkIndex, text := cv.1.text },
      vector := cv.2, payload := cv.1 }

/-- `main` (pipeline.ts lines 83-195), with the external collaborators as
parameters: loaded documents, markdown section parser, sentence splitter,
uuid v5 hash, embedding provider and vector store upsert. -/
def runMain (docs : List Doc) (mdParse : List Doc → List Sec)
    (splitter : List Char → List (List Char))
    (v5 : List Char → List Char → List Char)
    (embed : Nat → Nat → Except E (Option (List V)))
    (upsert : Nat → Nat → Except E Unit) : RunResult V E :=
  if docs.length = 0 then
    { result := .ok 0, warnings := [.noDocs], embedCalls := 0, upsertCalls := [] }
  else
    let chunks := processSections splitter (mdParse docs) []
    if chunks.length = 0 then
      { result := .ok 0, warnings := [.noChunks], embedCalls := 0, upsertCalls := [] }
    else
      let texts := chunks.map Chunk.text
      let er := embedBatchesGo embed 4 0 (chunkArray texts EMBED_BATCH) []
      match er.1 with
      | .error e =>
        { result := .error e, warnings := [], embedCalls := er.2, upsertCalls := [] }
      | .ok vectors =>
        if vectors.length ≠ chunks.length then
          { result := .error (.misalignment vectors.length chunks.length),
            warnings := [], embedCalls := er.2, upsertCalls := [] }
        else
          let ur := upsertBatchesGo upsert 4 0
            (chunkArray (buildPoints v5 chunks vectors) UPSERT_BATCH) 0
          match ur.1 with
          | .error e =>
            { result := .error (.retryExhausted e), warnings := [],
              embedCalls := er.2, upsertCalls := ur.2 }
          | .ok upserted =>
            { result := .ok upserted, warnings := [],
              embedCalls := er.2, upsertCalls := ur.2 }

/-! ### Helper lemmas about the stages -/

theorem withRetryGo_succ (fn : Nat → Except E A) (attempt rem : Nat) (l : Option E) :
    withRetryGo fn attempt (rem + 1) l
      = match fn attempt with
        | .ok a => (.ok a, [])
        | .error e =>
          ((withRetryGo fn (attempt + 1) rem (some e)).1,
            min (2000 * 2 ^ attempt) 15000 :: (withRetryGo fn (attempt + 1) rem (some e)).2) :=
  rfl

/-- If all four attempts fail, `withRetry` sleeps the capped exponential
backoff after each failure and propagates the last error. -/
theorem retry_all_fail (fn : Nat → Except E A) (es : Nat → E)
    (h : ∀ k, k < 4 → fn k = .error (es k)) :
    withRetry fn 4 = (.error (some (es 3)), [2000, 4000, 8000, 15000]) := by
  have h0 := h 0 (by omega)
  have h1 := h 1 (by omega)
  have h2 := h 2 (by omega)
  have h3 := h 3 (by omega)
  show withRetryGo fn 0 4 none = _
  simp [withRetryGo_succ, h0, h1, h2, h3, withRetryGo]

/-- The outcome of a `withRetry` run depends only on the first `tries`
attempts of the wrapped operation. -/
theorem withRetryGo_congr (fn g : Nat → Except E A) :
    ∀ (rem attempt : Nat) (l : Option E),
      (∀ k, attempt ≤ k → k < attempt + rem → fn k = g k) →
      withRetryGo fn attempt rem l = withRetryGo g attempt rem l := by
  intro rem
  induction rem with
  | zero => intro attempt l _; rfl
  | succ rem ih =>
    intro attempt l h
    rw [withRetryGo_succ, withRetryGo_succ, h attempt (Nat.le_refl _) (by omega)]
    cases hg : g attempt with
    | ok a => rfl
    | error e =>
      have hrec := ih (attempt + 1) (some e) (fun k hk1 hk2 => h k (by omega) (by omega))
      simp [hrec]

/-- If every batch's retried provider call settles on the `g`-image of that
batch, the embedding stage returns the `g`-image of the whole input, in
order. -/
theorem embedGo_ok (embed : Nat → Nat → Except E (Option (List V)))
    (g : List Char → V) :
    ∀ (bs : List (List (List Char))) (b0 : Nat) (acc : List V),
      (∀ j, j < bs.length →
        (withRetry (embed (b0 + j)) 4).1 = .ok (some ((bs.getD j []).map g))) →
      (embedBatchesGo embed 4 b0 bs acc).1 = .ok (acc ++ bs.flatten.map g) := by
  intro bs
  induction bs with
  | nil => intro b0 acc _; simp [embedBatchesGo]
  | cons slice rest ih =>
    intro b0 acc h
    have h0 := h 0 (by simp)
    rw [Nat.add_zero] at h0
    simp only [List.getD_cons_zero] at h0
    show (embedBatchesGo embed 4 b0 (slice :: rest) acc).1 = _
    simp only [embedBatchesGo]
    rw [h0]
    simp only [List.length_map, if_pos rfl]
    have hshift : ∀ j, j < rest.length →
        (withRetry (embed (b0 + 1 + j)) 4).1 = .ok (some ((rest.getD j []).map g)) := by
      intro j hj
      have := h (j + 1) (by simp; omega)
      rw [show b0 + (j + 1) = b0 + 1 + j from by omega] at this
      simpa using this
    rw [ih (b0 + 1) (acc ++ slice.map g) hshift]
    simp [List.flatten_cons]

theorem range_sum_shift (F : Nat → Nat) (n : Nat) :
    ((List.range (n + 1)).map F).sum
      = F 0 + ((List.range n).map (fun j => F (j + 1))).sum := by
  rw [List.range_succ_eq_map]
  simp only [List.map_cons, List.sum_cons, List.map_map]
  rfl

/-- If every batch before `b` settles with an aligned vector count and batch
`b` settles with a misaligned one, the embedding stage fails with the size
mismatch of batch `b`, after exactly the retry-loop calls of batches
`0..b`. -/
theorem embedGo_mismatch (embed : Nat → Nat → Except E (Option (List V))) :
    ∀ (bs : List (List (List Char))) (b0 b : Nat) (acc : List V) (data : List V),
      b < bs.length →
      (∀ j, j < b → ∃ d : List V, (withRetry (embed (b0 + j)) 4).1 = .ok (some d)
        ∧ d.length = (bs.getD j []).length) →
      (withRetry (embed (b0 + b)) 4).1 = .ok (some data) →
      data.length ≠ (bs.getD b []).length →
      embedBatchesGo embed 4 b0 bs acc
        = (.error (.sizeMismatch data.length (bs.getD b []).length),
          ((List.range (b + 1)).map
            (fun j => callsOf (withRetry (embed (b0 + j)) 4))).sum) := by
  intro bs
  induction bs with
  | nil => intro b0 b acc data hb; simp at hb
  | cons slice rest ih =>
    intro b0 b acc data hb hprev hbad hne
    match b with
    | 0 =>
      rw [Nat.add_zero] at hbad
      simp only [List.getD_cons_zero] at hne ⊢
      simp only [embedBatchesGo]
      rw [hbad]
      simp only [if_neg hne]
      simp [callsOf, show List.range 1 = [0] from rfl]
    | b' + 1 =>
      rcases hprev 0 (by omega) with ⟨d0, hd0ok, hd0len⟩
      rw [Nat.add_zero] at hd0ok
      simp only [List.getD_cons_zero] at hd0len
      simp only [List.getD_cons_succ] at hne ⊢
      simp only [embedBatchesGo]
      rw [hd0ok]
      simp only [if_pos hd0len]
      have hprev' : ∀ j, j < b' → ∃ d : List V,
          (withRetry (embed (b0 + 1 + j)) 4).1 = .ok (some d)
            ∧ d.length = (rest.getD j []).length := by
        intro j hj
        rcases hprev (j + 1) (by omega) with ⟨d, hdok, hdlen⟩
        rw [show b0 + (j + 1) = b0 + 1 + j from by omega] at hdok
        simp only [List.getD_cons_succ] at hdlen
        exact ⟨d, hdok, hdlen⟩
      have hbad' : (withRetry (embed (b0 + 1 + b')) 4).1 = .ok (some data) := by
        rw [show b0 + 1 + b' = b0 + (b' + 1) from by omega]
        exact hbad
      rw [ih (b0 + 1) b' (acc ++ d0) data (by simpa using hb) hprev' hbad' hne]
      simp only [Prod.mk.injEq]
      refine ⟨trivial, ?_⟩
      conv_rhs => rw [range_sum_shift]
      have hlam : (fun j => callsOf (withRetry (embed (b0 + 1 + j)) 4))
          = (fun j => callsOf (withRetry (embed (b0 + (j + 1))) 4)) :=
        funext (fun j => by rw [show b0 + 1 + j = b0 + (j + 1) from by omega])
      rw [hlam]
      simp

/-- Every batch the upsert stage passes to an upsert call comes from its
input batch list. -/
theorem upsertGo_calls_sub (upsert : Nat → Nat → Except E Unit) :
    ∀ (bs : List (List (Point V))) (i n : Nat) (b : List (Point V)),
      b ∈ (upsertBatchesGo upsert 4 i bs n).2 → b ∈ bs := by
  intro bs
  induction bs with
  | nil => intro i n b hb; simp [upsertBatchesGo] at hb
  | cons batch rest ih =>
    intro i n b hb
    simp only [upsertBatchesGo] at hb
    cases hc : (withRetry (upsert i) 4).1 with
    | error e =>
      rw [hc] at hb
      simp only [List.mem_singleton] at hb
      subst hb
      exact List.mem_cons_self _ _
    | ok u =>
      rw [hc] at hb
      simp only [List.mem_cons] at hb
      rcases hb with rfl | hb
      · exact List.mem_cons_self _ _
      · exact List.mem_cons_of_mem _ (ih _ _ b hb)

/-- Every chunk the section loop emits has non-empty text that is a fixed
point of `trim`. -/
theorem processSections_text (splitter : List Char → List (List Char)) :
    ∀ (secs : List Sec) (seen : List (List Char × Nat)) (ch : Chunk),
      ch ∈ processSections splitter secs seen →
      0 < ch.text.length ∧ trim ch.text = ch.text := by
  intro secs
  induction secs with
  | nil => intro seen ch h; simp [processSections] at h
  | cons sec rest ih =>
    intro seen ch h
    simp only [processSections] at h
    rcases List.mem_append.mp h with h | h
    · rw [buildChunks_eq] at h
      rcases List.mem_map.mp h with ⟨pr, _, rfl⟩
      refine ⟨by simp, ?_⟩
      exact trim_block_fixed _ _
    · exact ih _ ch h

/-- The payload of every built point is one of the chunks. -/
theorem buildPoints_payload_mem (v5 : List Char → List Char → List Char)
    (chunks : List Chunk) (vectors : List V) (pt : Point V)
    (h : pt ∈ buildPoints v5 chunks vectors) : pt.payload ∈ chunks := by
  rcases List.mem_map.mp h with ⟨cv, hcv, rfl⟩
  rcases cv with ⟨c, v⟩
  exact (List.of_mem_zip hcv).1

theorem runMain_noDocs (mdParse : List Doc → List Sec)
    (splitter : List Char → List (List Char))
    (v5 : List Char → List Char → List Char)
    (embed : Nat → Nat → Except E (Option (List V)))
    (upsert : Nat → Nat → Except E Unit) :
    runMain [] mdParse splitter v5 embed upsert
      = { result := .ok 0, warnings := [.noDocs], embedCalls := 0,
          upsertCalls := [] } := rfl

theorem runMain_noChunks (docs : List Doc) (mdParse : List Doc → List Sec)
    (splitter : List Char → List (List Char))
    (v5 : List Char → List Char → List Char)
    (embed : Nat → Nat → Except E (Option (List V)))
    (upsert : Nat → Nat → Except E Unit)
    (hdocs : docs ≠ [])
    (hchunks : processSections splitter (mdParse docs) [] = []) :
    runMain docs mdParse splitter v5 embed upsert
      = { result := .ok 0, warnings := [.noChunks], embedCalls := 0,
          upsertCalls := [] } := by
  unfold runMain
  rw [if_neg (by simpa using hdocs), if_pos (by simp [hchunks])]

theorem runMain_embed_error (docs : List Doc) (mdParse : List Doc → List Sec)
    (splitter : List Char → List (List Char))
    (v5 : List Char → List Char → List Char)
    (embed : Nat → Nat → Except E (Option (List V)))
    (upsert : Nat → Nat → Except E Unit)
    (hdocs : docs ≠ [])
    (hchunks : processSections splitter (mdParse docs) [] ≠ [])
    (e : PipeErr E)
    (herr : (embedBatchesGo embed 4 0
        (chunkArray ((processSections splitter (mdParse docs) []).map Chunk.text)
          EMBED_BATCH) []).1 = .error e) :
    runMain docs mdParse splitter v5 embed upsert
      = { result := .error e, warnings := [],
          embedCalls := (embedBatchesGo embed 4 0
            (chunkArray ((processSections splitter (mdParse docs) []).map Chunk.text)
              EMBED_BATCH) []).2,
          upsertCalls := [] } := by
  unfold runMain
  rw [if_neg (by simpa using hdocs), if_neg (by simpa using hchunks)]
  simp only [herr]

theorem embedGo_first_exhausted (embed : Nat → Nat → Except E (Option (List V)))
    (slice : List (List Char)) (rest : List (List (List Char))) (acc : List V)
    (eo : Option E) (h : (withRetry (embed 0) 4).1 = .error eo) :
    (embedBatchesGo embed 4 0 (slice :: rest) acc).1
      = .error (.retryExhausted eo) := by
  simp only [embedBatchesGo, h]

/-! ### The claims -/

/-- C1: the identifier produced by `stableId` is determined solely by the
triple `(path, sectionIndex, chunkIndex)` hashed under the fixed namespace
constant: two payloads with the same triple receive the same id regardless
of their text, and (for an injective name-based hash) two payloads with
identical text but different triples receive different ids. -/
theorem stableId_position_only :
    (∀ (v5 : List Char → List Char → List Char) (p : List Char) (s c : Nat)
      (t u : List Char),
      stableId v5 ⟨p, s, c, t⟩ = stableId v5 ⟨p, s, c, u⟩)
    ∧ (∀ v5 : List Char → List Char → List Char,
      Function.Injective (fun n => v5 n BASE_NS) →
      ∀ (p : List Char) (s c : Nat) (t p' : List Char) (s' c' : Nat) (u : List Char),
        ¬(p = p' ∧ s = s' ∧ c = c') →
        stableId v5 ⟨p, s, c, t⟩ ≠ stableId v5 ⟨p', s', c', u⟩) := by
  constructor
  · intro v5 p s c t u
    rfl
  · intro v5 hinj p s c t p' s' c' u hne heq
    exact hne (stableName_inj ⟨p, s, c, t⟩ ⟨p', s', c', u⟩ (hinj heq))

theorem stableId_position_only_witness :
    stableId (fun n _ => n) ⟨"a.md".data, 1, 1, "x".data⟩
        = stableId (fun n _ => n) ⟨"a.md".data, 1, 1, "y".data⟩
      ∧ stableId (fun n _ => n) ⟨"a.md".data, 1, 1, "x".data⟩
        ≠ stableId (fun n _ => n) ⟨"b.md".data, 1, 1, "x".data⟩ :=
  ⟨stableId_position_only.1 (fun n _ => n) "a.md".data 1 1 "x".data "y".data,
   stableId_position_only.2 (fun n _ => n) (fun _ _ h => h) "a.md".data 1 1
     "x".data "b.md".data 1 1 "x".data (by decide)⟩

/-- C3: within a section, the `chunkIndex` values of surviving chunks are
exactly the contiguous sequence `1..N` where `N` is the number of non-empty
chunks `splitSection` produced for that section (all of which are
non-empty). -/
theorem chunkIndex_contiguous_per_section
    (splitter : List Char → List (List Char)) (secText fp fn : List Char) (k : Nat) :
    ((buildChunks (splitSection splitter secText) fp fn k).map Chunk.chunkIndex)
        = List.range' 1 (splitSection splitter secText).length
      ∧ ∀ t ∈ splitSection splitter secText, 0 < t.length := by
  constructor
  · rw [buildChunks_eq, List.map_map]
    have h1 : (Chunk.chunkIndex ∘ fun pr : Nat × List Char =>
        ({ path := fp, fileName := fn, sectionIndex := k, chunkIndex := pr.1 + 1,
           text := ltrim fn ++ '|' :: '|' :: trim pr.2 } : Chunk))
        = (fun i : Nat => i + 1) ∘ Prod.fst := rfl
    rw [h1, ← List.map_map, List.enum_map_fst, List.range'_eq_map_range]
    have h2 : (fun i : Nat => i + 1) = (fun i : Nat => 1 + i) :=
      funext (fun i => Nat.add_comm i 1)
    rw [h2]
  · intro t ht
    have := List.of_mem_filter ht
    simpa using this

theorem chunkIndex_contiguous_per_section_witness :
    ((buildChunks (splitSection (fun t => [t]) "hi".data) "a.md".data "a".data 1).map
        Chunk.chunkIndex) = [1]
      ∧ 0 < ("hi".data).length :=
  ⟨(chunkIndex_contiguous_per_section (fun t => [t]) "hi".data "a.md".data "a".data 1).1,
   (chunkIndex_contiguous_per_section (fun t => [t]) "hi".data "a.md".data "a".data 1).2
     "hi".data (by decide)⟩

/-- C8: `sectionIndex` numbering restarts at 1 for each source file (keyed by
the document's path) and increases by 1 for each successive section of that
file; in particular two sections of the same file get indices 1 and 2, each
with its own `chunkIndex` sequence (chunk indexing restarts per section via
`buildChunks`). -/
theorem sectionIndex_per_file_numbering (splitter : List Char → List (List Char)) :
    (∀ secs : List Sec,
      processSections splitter secs [] = processSectionsSpec splitter secs (fun _ => 0))
    ∧ (∀ (p t1 t2 : List Char),
      processSections splitter [⟨p, t1⟩, ⟨p, t2⟩] []
        = buildChunks (splitSection splitter t1) p (fileNameOf p) 1
          ++ buildChunks (splitSection splitter t2) p (fileNameOf p) 2) := by
  constructor
  · intro secs
    exact processSections_eq_spec_aux splitter secs [] (fun _ => 0) (fun _ => rfl)
  · intro p t1 t2
    simp [processSections, lookupPath]

/-- C9 counterexample: for a file name with leading whitespace (legal for an
eligible `.md` file), the stored text is NOT `fileName ++ "||" ++ raw`: the
final `trim` strips the file name's leading whitespace. -/
theorem stored_text_counterexample :
    (processSections (fun t => [t]) [⟨" a.md".data, "hello".data⟩] []).map Chunk.text
        = ["a||hello".data]
      ∧ fileNameOf " a.md".data ++ '|' :: '|' :: trim "hello".data = " a||hello".data
      ∧ ("a||hello".data : List Char) ≠ " a||hello".data := by
  refine ⟨by decide, by decide, by decide⟩

/-- C9 (amended): for every surviving chunk, the text that is embedded and
stored equals the source file's base name with leading whitespace removed,
followed by `"||"`, followed by the chunk's trimmed raw text; and the point
payloads carry exactly the chunk texts. -/
theorem stored_text_shape :
    (∀ (parts : List (List Char)) (fp fn : List Char) (k : Nat),
      buildChunks parts fp fn k = parts.enum.map (fun pr =>
        { path := fp, fileName := fn, sectionIndex := k, chunkIndex := pr.1 + 1,
          text := ltrim fn ++ '|' :: '|' :: trim pr.2 : Chunk }))
    ∧ (∀ (V : Type) (v5 : List Char → List Char → List Char) (chunks : List Chunk)
      (vectors : List V), vectors.length = chunks.length →
      (buildPoints v5 chunks vectors).map (fun pt => pt.payload.text)
        = chunks.map Chunk.text) := by
  constructor
  · exact buildChunks_eq
  · intro V v5 chunks vectors hlen
    unfold buildPoints
    rw [List.map_map]
    rw [show ((fun pt : Point V => pt.payload.text) ∘ fun cv : Chunk × V =>
        ({ id := stableId v5 ⟨cv.1.path, cv.1.sectionIndex, cv.1.chunkIndex, cv.1.text⟩,
           vector := cv.2, payload := cv.1 } : Point V))
        = Chunk.text ∘ Prod.fst from rfl]
    rw [← List.map_map, List.map_fst_zip _ _ (Nat.le_of_eq hlen.symm)]

theorem stored_text_shape_witness :
    buildChunks ["hi".data] "a.md".data "a".data 1
        = [(⟨"a.md".data, "a".data, 1, 1, "a||hi".data⟩ : Chunk)]
      ∧ (buildPoints (fun n _ => n)
          [(⟨"a.md".data, "a".data, 1, 1, "a||hi".data⟩ : Chunk)] [(0 : Nat)]).map
          (fun pt => pt.payload.text)
        = ["a||hi".data] :=
  ⟨by
    have h := stored_text_shape.1 ["hi".data] "a.md".data "a".data 1
    rw [h]
    decide,
   stored_text_shape.2 Nat (fun n _ => n)
     [⟨"a.md".data, "a".data, 1, 1, "a||hi".data⟩] [0] rfl⟩

/-- C10: `chunkArray` terminates and returns a partition of its input for
every input list when the batch size is at least 1 (as with the constants
`EMBED_BATCH = 128` and `UPSERT_BATCH = 2000` used by the pipeline); for a
batch size of 0 or below and a non-empty list, the loop never
terminates. -/
theorem chunkArray_partition_or_diverges :
    (∀ (α : Type) (arr : List α) (s : Nat),
      chunkArrayFuel arr ((s : Int) + 1) (arr.length + 1) 0 []
          = some (chunkArray arr (s + 1))
        ∧ (chunkArray arr (s + 1)).flatten = arr
        ∧ ∀ b ∈ chunkArray arr (s + 1), b.length ≤ s + 1)
    ∧ (∀ (α : Type) (arr : List α) (size : Int), size ≤ 0 → arr ≠ [] →
      ∀ fuel, chunkArrayFuel arr size fuel 0 [] = none)
    ∧ EMBED_BATCH = 127 + 1 ∧ UPSERT_BATCH = 1999 + 1 := by
  refine ⟨?_, ?_, rfl, rfl⟩
  · intro α arr s
    refine ⟨?_, flatten_chunkArray s arr, chunkArray_batch_le s arr⟩
    have h := chunkArrayFuel_pos s arr arr.length 0 [] (by omega)
    simpa using h
  · intro α arr size hs ha fuel
    exact chunkArrayFuel_nonpos arr size hs ha fuel 0 (by omega) []

theorem chunkArray_partition_or_diverges_witness :
    (chunkArrayFuel [1, 2, 3] (((1 : Nat) : Int) + 1) 4 0 []
        = some (chunkArray [1, 2, 3] 2)
      ∧ (chunkArray [1, 2, 3] 2).flatten = [1, 2, 3])
      ∧ chunkArrayFuel [1] (-1) 5 0 [] = none :=
  ⟨⟨(chunkArray_partition_or_diverges.1 Nat [1, 2, 3] 1).1,
    (chunkArray_partition_or_diverges.1 Nat [1, 2, 3] 1).2.1⟩,
   chunkArray_partition_or_diverges.2.1 Nat [1] (-1) (by decide) (by decide) 5⟩

/-- C2: if (for the first misbehaving batch) the provider call the retry
loop accepts returns a vector count different from that batch's input text
count, the pipeline fails with the size-mismatch error, no upsert call is
made in that run, and the provider is invoked exactly the retry-loop call
counts of batches `0..b` — the count validation itself is outside the retry
and is never retried. -/
theorem embed_mismatch_fatal_no_upsert (E V : Type) (docs : List Doc)
    (mdParse : List Doc → List Sec) (splitter : List Char → List (List Char))
    (v5 : List Char → List Char → List Char)
    (embed : Nat → Nat → Except E (Option (List V)))
    (upsert : Nat → Nat → Except E Unit) (b : Nat) (data : List V)
    (hdocs : docs ≠ [])
    (hchunks : processSections splitter (mdParse docs) [] ≠ [])
    (hb : b < (chunkArray ((processSections splitter (mdParse docs) []).map Chunk.text)
      EMBED_BATCH).length)
    (hprev : ∀ j, j < b → ∃ d : List V, (withRetry (embed j) 4).1 = .ok (some d)
      ∧ d.length = ((chunkArray ((processSections splitter (mdParse docs) []).map
        Chunk.text) EMBED_BATCH).getD j []).length)
    (hbad : (withRetry (embed b) 4).1 = .ok (some data))
    (hne : data.length ≠ ((chunkArray ((processSections splitter (mdParse docs) []).map
      Chunk.text) EMBED_BATCH).getD b []).length) :
    (runMain docs mdParse splitter v5 embed upsert).result
        = .error (.sizeMismatch data.length
          ((chunkArray ((processSections splitter (mdParse docs) []).map Chunk.text)
            EMBED_BATCH).getD b []).length)
      ∧ (runMain docs mdParse splitter v5 embed upsert).upsertCalls = []
      ∧ (runMain docs mdParse splitter v5 embed upsert).embedCalls
        = ((List.range (b + 1)).map (fun j => callsOf (withRetry (embed j) 4))).sum := by
  have hgo := embedGo_mismatch embed
    (chunkArray ((processSections splitter (mdParse docs) []).map Chunk.text) EMBED_BATCH)
    0 b [] data hb
    (fun j hj => by rw [Nat.zero_add]; exact hprev j hj)
    (by rw [Nat.zero_add]; exact hbad) hne
  have herr : (embedBatchesGo embed 4 0
      (chunkArray ((processSections splitter (mdParse docs) []).map Chunk.text)
        EMBED_BATCH) []).1
      = .error (.sizeMismatch data.length
        ((chunkArray ((processSections splitter (mdParse docs) []).map Chunk.text)
          EMBED_BATCH).getD b []).length) := by
    rw [hgo]
  have hrun := runMain_embed_error docs mdParse splitter v5 embed upsert hdocs hchunks _ herr
  rw [hrun]
  refine ⟨rfl, rfl, ?_⟩
  show (embedBatchesGo embed 4 0
      (chunkArray ((processSections splitter (mdParse docs) []).map Chunk.text)
        EMBED_BATCH) []).2 = _
  rw [hgo]
  simp

theorem embed_mismatch_fatal_no_upsert_witness :
    (runMain [⟨"a.md".data, "x".data⟩] (fun _ => [⟨"a.md".data, "hi".data⟩])
        (fun t => [t]) (fun n _ => n)
        (fun _ _ => (Except.ok (some []) : Except Nat (Option (List Nat))))
        (fun _ _ => (Except.ok () : Except Nat Unit))).result
      = .error (.sizeMismatch 0 1)
    ∧ (runMain [⟨"a.md".data, "x".data⟩] (fun _ => [⟨"a.md".data, "hi".data⟩])
        (fun t => [t]) (fun n _ => n)
        (fun _ _ => (Except.ok (some []) : Except Nat (Option (List Nat))))
        (fun _ _ => (Except.ok () : Except Nat Unit))).upsertCalls = [] := by
  have h := embed_mismatch_fatal_no_upsert Nat Nat
    [⟨"a.md".data, "x".data⟩] (fun _ => [⟨"a.md".data, "hi".data⟩])
    (fun t => [t]) (fun n _ => n)
    (fun _ _ => (Except.ok (some []) : Except Nat (Option (List Nat))))
    (fun _ _ => (Except.ok () : Except Nat Unit)) 0 []
    (by decide) (by decide) (by decide)
    (fun j hj => absurd hj (Nat.not_lt_zero j)) rfl (by decide)
  exact ⟨h.1.trans (congrArg Except.error (by decide)), h.2.1⟩

/-- C4: batching is order-preserving — `chunkArray` partitions the text list
into consecutive batches of at most `B` items whose concatenation is the
original list — and when every batch's retried provider call settles on the
`g`-image of that batch (e.g. after transient failures), the concatenated
vector list is exactly the `g`-image of the original chunk-text list:
index-aligned, no vectors lost or duplicated, total length equal to the
chunk count. -/
theorem batching_order_preserving_aligned (texts : List (List Char)) (s : Nat)
    (V E : Type) (g : List Char → V)
    (embed : Nat → Nat → Except E (Option (List V))) :
    (∀ batch ∈ chunkArray texts (s + 1), batch.length ≤ s + 1)
    ∧ (chunkArray texts (s + 1)).flatten = texts
    ∧ ((∀ j, j < (chunkArray texts (s + 1)).length →
        (withRetry (embed j) 4).1
          = .ok (some (((chunkArray texts (s + 1)).getD j []).map g))) →
      (embedBatchesGo embed 4 0 (chunkArray texts (s + 1)) []).1 = .ok (texts.map g)
        ∧ (texts.map g).length = texts.length) := by
  refine ⟨chunkArray_batch_le s texts, flatten_chunkArray s texts, ?_⟩
  intro h
  have hok := embedGo_ok embed g (chunkArray texts (s + 1)) 0 []
    (fun j hj => by rw [Nat.zero_add]; exact h j hj)
  rw [flatten_chunkArray] at hok
  constructor
  · simpa using hok
  · exact List.length_map _ _

theorem batching_order_preserving_aligned_witness :
    (embedBatchesGo
        (fun b a => if a = 0 then (Except.error 0 : Except Nat (Option (List Nat)))
          else .ok (some (((chunkArray [['a'], ['b'], ['c']] 2).getD b []).map
            List.length)))
        4 0 (chunkArray [['a'], ['b'], ['c']] 2) []).1
      = .ok [1, 1, 1]
    ∧ (chunkArray [['a'], ['b'], ['c']] 2).flatten = [['a'], ['b'], ['c']] := by
  have h := batching_order_preserving_aligned [['a'], ['b'], ['c']] 1 Nat Nat
    List.length
    (fun b a => if a = 0 then (Except.error 0 : Except Nat (Option (List Nat)))
      else .ok (some (((chunkArray [['a'], ['b'], ['c']] 2).getD b []).map
        List.length)))
  refine ⟨?_, h.2.1⟩
  have hcalls : ∀ j, j < (chunkArray [['a'], ['b'], ['c']] 2).length →
      (withRetry ((fun b a => if a = 0
          then (Except.error 0 : Except Nat (Option (List Nat)))
          else .ok (some (((chunkArray [['a'], ['b'], ['c']] 2).getD b []).map
            List.length))) j) 4).1
        = .ok (some (((chunkArray [['a'], ['b'], ['c']] 2).getD j []).map
          List.length)) := by
    intro j hj
    have hlen : (chunkArray [['a'], ['b'], ['c']] 2).length = 2 := by decide
    rw [hlen] at hj
    interval_cases j <;> rfl
  exact (h.2.2 hcalls).1

/-- C5: each network call is retried up to 4 attempts, with a sleep of
`min (2000 * 2 ^ attempt) 15000` milliseconds recorded after each failed
attempt (2000, 4000, 8000, 15000); the outcome depends only on the first 4
attempts; after exhaustion the last error is propagated, the run aborts,
and the process exit status is 1. -/
theorem retry_backoff_and_abort :
    (∀ (E A : Type) (fn : Nat → Except E A) (es : Nat → E),
      (∀ k, k < 4 → fn k = .error (es k)) →
      withRetry fn 4 = (.error (some (es 3)), [2000, 4000, 8000, 15000]))
    ∧ (∀ (E A : Type) (fn g : Nat → Except E A),
      (∀ k, k < 4 → fn k = g k) → withRetry fn 4 = withRetry g 4)
    ∧ (∀ (E V : Type) (docs : List Doc) (mdParse : List Doc → List Sec)
      (splitter : List Char → List (List Char))
      (v5 : List Char → List Char → List Char)
      (embed : Nat → Nat → Except E (Option (List V)))
      (upsert : Nat → Nat → Except E Unit) (es : Nat → E),
      docs ≠ [] → processSections splitter (mdParse docs) [] ≠ [] →
      (∀ k, k < 4 → embed 0 k = .error (es k)) →
      (runMain docs mdParse splitter v5 embed upsert).result
          = .error (.retryExhausted (some (es 3)))
        ∧ processExit (runMain docs mdParse splitter v5 embed upsert).result = 1) := by
  refine ⟨?_, ?_, ?_⟩
  · intro E A fn es h
    exact retry_all_fail fn es h
  · intro E A fn g h
    exact withRetryGo_congr fn g 4 0 none (fun k hk1 hk2 => h k (by omega))
  · intro E V docs mdParse splitter v5 embed upsert es hdocs hchunks hfail
    have hr1 : (withRetry (embed 0) 4).1 = .error (some (es 3)) := by
      rw [retry_all_fail (embed 0) es hfail]
    have herr : (embedBatchesGo embed 4 0
        (chunkArray ((processSections splitter (mdParse docs) []).map Chunk.text)
          EMBED_BATCH) []).1
        = .error (.retryExhausted (some (es 3))) := by
      rcases htexts : (processSections splitter (mdParse docs) []).map Chunk.text
        with _ | ⟨t, ts⟩
      · exact absurd (List.map_eq_nil_iff.mp htexts) hchunks
      · rw [show EMBED_BATCH = 127 + 1 from rfl, chunkArray_cons]
        exact embedGo_first_exhausted embed _ _ [] _ hr1
    rw [runMain_embed_error docs mdParse splitter v5 embed upsert hdocs hchunks _ herr]
    exact ⟨rfl, rfl⟩

theorem retry_backoff_and_abort_witness :
    withRetry (fun k => (Except.error k : Except Nat Nat)) 4
        = (.error (some 3), [2000, 4000, 8000, 15000])
      ∧ (runMain [⟨"a.md".data, "x".data⟩] (fun _ => [⟨"a.md".data, "hi".data⟩])
          (fun t => [t]) (fun n _ => n)
          (fun _ a => (Except.error a : Except Nat (Option (List Nat))))
          (fun _ _ => (Except.ok () : Except Nat Unit))).result
        = .error (.retryExhausted (some 3)) :=
  ⟨retry_backoff_and_abort.1 Nat Nat (fun k => .error k) (fun k => k)
     (fun _ _ => rfl),
   (retry_backoff_and_abort.2.2 Nat Nat [⟨"a.md".data, "x".data⟩]
     (fun _ => [⟨"a.md".data, "hi".data⟩]) (fun t => [t]) (fun n _ => n)
     (fun _ a => .error a) (fun _ _ => .ok ()) (fun k => k)
     (by decide) (by decide) (fun _ _ => rfl)).1⟩

/-- C6: with zero loaded documents, or zero chunks after splitting and
filtering, the pipeline records the corresponding warning and returns
cleanly (exit status 0) having made no embedding-provider calls and no
vector-store calls. -/
theorem empty_input_clean_exit :
    (∀ (E V : Type) (mdParse : List Doc → List Sec)
      (splitter : List Char → List (List Char))
      (v5 : List Char → List Char → List Char)
      (embed : Nat → Nat → Except E (Option (List V)))
      (upsert : Nat → Nat → Except E Unit),
      runMain [] mdParse splitter v5 embed upsert
          = { result := .ok 0, warnings := [.noDocs], embedCalls := 0,
              upsertCalls := [] }
        ∧ processExit (runMain ([] : List Doc) mdParse splitter v5 embed upsert).result
          = 0)
    ∧ (∀ (E V : Type) (docs : List Doc) (mdParse : List Doc → List Sec)
      (splitter : List Char → List (List Char))
      (v5 : List Char → List Char → List Char)
      (embed : Nat → Nat → Except E (Option (List V)))
      (upsert : Nat → Nat → Except E Unit),
      docs ≠ [] → processSections splitter (mdParse docs) [] = [] →
      runMain docs mdParse splitter v5 embed upsert
          = { result := .ok 0, warnings := [.noChunks], embedCalls := 0,
              upsertCalls := [] }
        ∧ processExit (runMain docs mdParse splitter v5 embed upsert).result = 0) := by
  constructor
  · intro E V mdParse splitter v5 embed upsert
    refine ⟨runMain_noDocs mdParse splitter v5 embed upsert, ?_⟩
    rw [runMain_noDocs mdParse splitter v5 embed upsert]
    rfl
  · intro E V docs mdParse splitter v5 embed upsert hdocs hchunks
    refine ⟨runMain_noChunks docs mdParse splitter v5 embed upsert hdocs hchunks, ?_⟩
    rw [runMain_noChunks docs mdParse splitter v5 embed upsert hdocs hchunks]
    rfl

theorem empty_input_clean_exit_witness :
    (runMain [] (fun _ => [⟨"a.md".data, "hi".data⟩]) (fun t => [t]) (fun n _ => n)
        (fun _ _ => (Except.ok (some [(0 : Nat)]) : Except Nat (Option (List Nat))))
        (fun _ _ => (Except.ok () : Except Nat Unit)))
      = { result := .ok 0, warnings := [.noDocs], embedCalls := 0, upsertCalls := [] }
    ∧ (runMain [⟨"a.md".data, "x".data⟩] (fun _ => [⟨"a.md".data, "hi".data⟩])
        (fun _ => []) (fun n _ => n)
        (fun _ _ => (Except.ok (some [(0 : Nat)]) : Except Nat (Option (List Nat))))
        (fun _ _ => (Except.ok () : Except Nat Unit)))
      = { result := .ok 0, warnings := [.noChunks], embedCalls := 0,
          upsertCalls := [] } :=
  ⟨(empty_input_clean_exit.1 Nat Nat (fun _ => [⟨"a.md".data, "hi".data⟩])
     (fun t => [t]) (fun n _ => n) (fun _ _ => .ok (some [0]))
     (fun _ _ => .ok ())).1,
   (empty_input_clean_exit.2 Nat Nat [⟨"a.md".data, "x".data⟩]
     (fun _ => [⟨"a.md".data, "hi".data⟩]) (fun _ => []) (fun n _ => n)
     (fun _ _ => .ok (some [0])) (fun _ _ => .ok ())
     (by decide) (by decide)).1⟩

/-- C7: no point whose payload text is empty or whitespace-only is ever
passed to the upsert stage — every point in every batch handed to an upsert
call has non-empty text that is a fixed point of `trim`. -/
theorem no_empty_text_reaches_upsert (E V : Type) (docs : List Doc)
    (mdParse : List Doc → List Sec) (splitter : List Char → List (List Char))
    (v5 : List Char → List Char → List Char)
    (embed : Nat → Nat → Except E (Option (List V)))
    (upsert : Nat → Nat → Except E Unit)
    (batch : List (Point V)) (pt : Point V)
    (hbatch : batch ∈ (runMain docs mdParse splitter v5 embed upsert).upsertCalls)
    (hpt : pt ∈ batch) :
    0 < pt.payload.text.length ∧ trim pt.payload.text = pt.payload.text := by
  simp only [runMain] at hbatch
  split at hbatch
  · simp at hbatch
  · split at hbatch
    · simp at hbatch
    · split at hbatch
      · simp at hbatch
      · split at hbatch
        · simp at hbatch
        · split at hbatch
          · have hbs := upsertGo_calls_sub upsert _ _ _ batch hbatch
            have hfl : pt ∈ (chunkArray
                (buildPoints v5 (processSections splitter (mdParse docs) []) _)
                UPSERT_BATCH).flatten :=
              List.mem_flatten.mpr ⟨batch, hbs, hpt⟩
            rw [show UPSERT_BATCH = 1999 + 1 from rfl, flatten_chunkArray] at hfl
            exact processSections_text splitter _ [] pt.payload
              (buildPoints_payload_mem v5 _ _ pt hfl)
          · have hbs := upsertGo_calls_sub upsert _ _ _ batch hbatch
            have hfl : pt ∈ (chunkArray
                (buildPoints v5 (processSections splitter (mdParse docs) []) _)
                UPSERT_BATCH).flatten :=
              List.mem_flatten.mpr ⟨batch, hbs, hpt⟩
            rw [show UPSERT_BATCH = 1999 + 1 from rfl, flatten_chunkArray] at hfl
            exact processSections_text splitter _ [] pt.payload
              (buildPoints_payload_mem v5 _ _ pt hfl)

theorem no_empty_text_reaches_upsert_witness :
    0 < (((⟨"a.md|s1|c1".data, 0, ⟨"a.md".data, "a".data, 1, 1, "a||hi".data⟩⟩ :
        Point Nat)).payload.text).length
      ∧ trim ((⟨"a.md|s1|c1".data, 0, ⟨"a.md".data, "a".data, 1, 1,
          "a||hi".data⟩⟩ : Point Nat)).payload.text
        = ((⟨"a.md|s1|c1".data, 0, ⟨"a.md".data, "a".data, 1, 1,
          "a||hi".data⟩⟩ : Point Nat)).payload.text :=
  no_empty_text_reaches_upsert Nat Nat [⟨"a.md".data, "x".data⟩]
    (fun _ => [⟨"a.md".data, "hi".data⟩]) (fun t => [t]) (fun n _ => n)
    (fun _ _ => (Except.ok (some [0]) : Except Nat (Option (List Nat))))
    (fun _ _ => (Except.ok () : Except Nat Unit))
    [⟨"a.md|s1|c1".data, 0, ⟨"a.md".data, "a".data, 1, 1, "a||hi".data⟩⟩]
    ⟨"a.md|s1|c1".data, 0, ⟨"a.md".data, "a".data, 1, 1, "a||hi".data⟩⟩
    (by decide) (by decide)

end KB
